import Mathlib

/-!
Verification of the 2048 game engine in `2048.py`.

The board is a list of rows of integer tiles (0 = empty).  The move engine
(`move`, lines 51-121 of the source) processes each line from the far edge
backward; a tile repeatedly slides into an empty neighbour or merges with a
neighbour of equal absolute value.  Vertical moves act on the columns
independently, so they are embedded as the same line operation applied
through a transposition.  All machine integers of the source are unbounded
Python ints, embedded as `Int`; the spawn weights are Python numbers,
embedded as `ℚ`.
-/

namespace Game2048

abbrev Board := List (List Int)

/-- Cell access `board[i][j]`; out-of-range reads give 0 (the source only
indexes in range, and every theorem quantifies over in-range indices or
well-formed boards). -/
def cell (b : Board) (i j : Nat) : Int := (b.getD i []).getD j 0

/-- Well-formed board of X rows and Y columns, as built by the source. -/
def WF (X Y : Nat) (b : Board) : Prop :=
  b.length = X ∧ ∀ r ∈ b, r.length = Y

/-- `stringify` (source lines 44-48): concatenation of `str(board[row][col])`
over `col in range(Y)` inside `row in range(X)`. -/
def stringify (X Y : Nat) (b : Board) : String :=
  String.join ((List.range X).map (fun row =>
    String.join ((List.range Y).map (fun col => toString (cell b row col)))))

/-- Inner while-loop of `move` for sign = +1 (right/down), source lines
78-96/100-118: the tile at index `c` slides into an empty neighbour at
`c+1`, or merges with a neighbour of equal absolute value (the merged value
is added to the points), or stops.  `g` is structural fuel; the wrapper
`pushFwd` passes `r.length - c`, which bounds the number of iterations and
keeps the exact break condition `c + 1 < r.length` of the source. -/
def slideFwd : Nat → List Int → Nat → List Int × Int
  | 0, r, _ => (r, 0)
  | g + 1, r, c =>
    if c + 1 < r.length then
      let cur := r.getD c 0
      let nxt := r.getD (c + 1) 0
      if nxt = 0 then
        slideFwd g ((r.set (c + 1) cur).set c 0) (c + 1)
      else if cur.natAbs = nxt.natAbs then
        let res := slideFwd g ((r.set (c + 1) (nxt + cur)).set c 0) (c + 1)
        (res.1, res.2 + (nxt + cur))
      else (r, 0)
    else (r, 0)

def pushFwd (r : List Int) (c : Nat) : List Int × Int :=
  slideFwd (r.length - c) r c

/-- Inner while-loop of `move` for sign = -1 (left/up): break when the index
is 0, else look at index `c - 1`. -/
def slideBwd : List Int → Nat → List Int × Int
  | r, 0 => (r, 0)
  | r, c + 1 =>
    let cur := r.getD (c + 1) 0
    let nxt := r.getD c 0
    if nxt = 0 then
      slideBwd ((r.set c cur).set (c + 1) 0) c
    else if cur.natAbs = nxt.natAbs then
      let res := slideBwd ((r.set c (nxt + cur)).set (c + 1) 0) c
      (res.1, res.2 + (nxt + cur))
    else (r, 0)

/-- Scan of one line: the outer `for col in r` loop, starting the inner
while-loop at each index of `cols` in order, accumulating points. -/
def scanFwd : List Nat → List Int → List Int × Int
  | [], r => (r, 0)
  | c :: cs, r =>
    let res := pushFwd r c
    let res2 := scanFwd cs res.1
    (res2.1, res.2 + res2.2)

def scanBwd : List Nat → List Int → List Int × Int
  | [], r => (r, 0)
  | c :: cs, r =>
    let res := slideBwd r c
    let res2 := scanBwd cs res.1
    (res2.1, res.2 + res2.2)

/-- A full line pass toward the far (high-index) edge: scan order
`range(n-1, -1, -1)`. -/
def lineFwd (n : Nat) (r : List Int) : List Int × Int :=
  scanFwd (List.range n).reverse r

/-- A full line pass toward the near (index-0) edge: scan order `range(n)`. -/
def lineBwd (n : Nat) (r : List Int) : List Int × Int :=
  scanBwd (List.range n) r

/-- Apply a line pass to every line of the board, summing points. -/
def moveLines (f : List Int → List Int × Int) : Board → Board × Int
  | [] => ([], 0)
  | r :: rest =>
    let res := f r
    let res2 := moveLines f rest
    (res.1 :: res2.1, res.2 + res2.2)

/-- The list of the `n` columns of `b` (the vertical branch of `move`
processes each column independently with the same while-loop, so a vertical
move is the line pass applied through this transposition). -/
def transposeB (n : Nat) (b : Board) : Board :=
  (List.range n).map (fun j => b.map (fun r => r.getD j 0))

inductive Direction
  | up | down | left | right
deriving DecidableEq

structure MoveResult where
  board : Board
  points : Int
  changed : Bool
deriving Repr, DecidableEq

/-- `move` (source lines 51-121).  right: rows, far edge `Y-1`, scan
`range(Y-1,-1,-1)`; left: rows, scan `range(Y)`; down/up: the same on the
columns with `X` in place of `Y`.  `changed` compares the stringified board
before and after the pass (line 121: `pre != post`). -/
def move (X Y : Nat) (b : Board) (d : Direction) : MoveResult :=
  let res : Board × Int :=
    match d with
    | .right => moveLines (lineFwd Y) b
    | .left => moveLines (lineBwd Y) b
    | .down =>
      let t := moveLines (lineFwd X) (transposeB Y b)
      (transposeB X t.1, t.2)
    | .up =>
      let t := moveLines (lineBwd X) (transposeB Y b)
      (transposeB X t.1, t.2)
  { board := res.1
    points := res.2
    changed := decide (stringify X Y b ≠ stringify X Y res.1) }

/-- Sum of all tile values on the board. -/
def boardSum (b : Board) : Int := (b.map (fun r => r.sum)).sum

/-- Merge-trace twin of `slideFwd`: identical control flow, but it records
the value of each merged tile (the value the source adds to `points` at
line 94) in a list instead of summing it. -/
def slideFwdM : Nat → List Int → Nat → List Int × List Int
  | 0, r, _ => (r, [])
  | g + 1, r, c =>
    if c + 1 < r.length then
      let cur := r.getD c 0
      let nxt := r.getD (c + 1) 0
      if nxt = 0 then
        slideFwdM g ((r.set (c + 1) cur).set c 0) (c + 1)
      else if cur.natAbs = nxt.natAbs then
        let res := slideFwdM g ((r.set (c + 1) (nxt + cur)).set c 0) (c + 1)
        (res.1, (nxt + cur) :: res.2)
      else (r, [])
    else (r, [])

def pushFwdM (r : List Int) (c : Nat) : List Int × List Int :=
  slideFwdM (r.length - c) r c

/-- Merge-trace twin of `slideBwd`. -/
def slideBwdM : List Int → Nat → List Int × List Int
  | r, 0 => (r, [])
  | r, c + 1 =>
    let cur := r.getD (c + 1) 0
    let nxt := r.getD c 0
    if nxt = 0 then
      slideBwdM ((r.set c cur).set (c + 1) 0) c
    else if cur.natAbs = nxt.natAbs then
      let res := slideBwdM ((r.set c (nxt + cur)).set (c + 1) 0) c
      (res.1, (nxt + cur) :: res.2)
    else (r, [])

def scanFwdM : List Nat → List Int → List Int × List Int
  | [], r => (r, [])
  | c :: cs, r =>
    let res := pushFwdM r c
    let res2 := scanFwdM cs res.1
    (res2.1, res.2 ++ res2.2)

def scanBwdM : List Nat → List Int → List Int × List Int
  | [], r => (r, [])
  | c :: cs, r =>
    let res := slideBwdM r c
    let res2 := scanBwdM cs res.1
    (res2.1, res.2 ++ res2.2)

def moveLinesM (f : List Int → List Int × List Int) : Board → Board × List Int
  | [] => ([], [])
  | r :: rest =>
    let res := f r
    let res2 := moveLinesM f rest
    (res.1 :: res2.1, res.2 ++ res2.2)

/-- The list of values of all merged tiles formed by `move X Y b d`, in the
order the merges are performed. -/
def moveMerges (X Y : Nat) (b : Board) (d : Direction) : List Int :=
  match d with
  | .right => (moveLinesM (fun r => scanFwdM (List.range Y).reverse r) b).2
  | .left => (moveLinesM (fun r => scanBwdM (List.range Y) r) b).2
  | .down => (moveLinesM (fun r => scanFwdM (List.range X).reverse r) (transposeB Y b)).2
  | .up => (moveLinesM (fun r => scanBwdM (List.range X) r) (transposeB Y b)).2

/-- `is_full` (source lines 124-126): `all(all(board[row][col] != 0 for row
in range(X)) for col in range(Y))`. -/
def is_full (X Y : Nat) (b : Board) : Bool :=
  (List.range Y).all (fun col => (List.range X).all (fun row => cell b row col != 0))

/-- `is_game_over` (source lines 129-143): false unless the board is full,
then false when some row has two equal horizontally adjacent cells, then
false when some column has two equal vertically adjacent cells. -/
def is_game_over (X Y : Nat) (b : Board) : Bool :=
  if is_full X Y b = false then false
  else if (List.range X).any (fun row =>
      (List.range (Y - 1)).any (fun col => cell b row col == cell b row (col + 1))) then
    false
  else if (List.range Y).any (fun col =>
      (List.range (X - 1)).any (fun row => cell b row col == cell b (row + 1) col)) then
    false
  else true

/-- Walk of `get_tile` (source lines 205-209) in exact rational arithmetic:
for each (choice, weight) in table order, return the choice if
`rand < weight / N`, else subtract `weight / N` from `rand` and continue.
This is an idealization: the source computes with IEEE-754 binary64
doubles (`random()`, float division and subtraction); the rounded walk the
source actually performs is `get_tile_fp_go` below, and the two differ on
inputs where rounding makes the running remainder land exactly on a
rounded weight. -/
def get_tile_go (N : ℚ) : List (Int × ℚ) → ℚ → Option Int
  | [], _ => none
  | (choice, weight) :: rest, rand =>
    if rand < weight / N then some choice else get_tile_go N rest (rand - weight / N)

/-- `get_tile` (source lines 202-210) with the uniform draw `rand` made an
explicit argument; `N = sum(settings.values())`.  Falling out of the loop
returns the failure sentinel (the source returns the string "E"), embedded
as `none`.  Exact-arithmetic idealization; see `get_tile_fp` for the
binary64 walk of the source. -/
def get_tile (settings : List (Int × ℚ)) (rand : ℚ) : Option Int :=
  get_tile_go ((settings.map Prod.snd).sum) settings rand

/-- Nearest integer to `x`, ties to the even integer: the IEEE-754 default
rounding of a significand. -/
def roundTiesEven (x : ℚ) : Int :=
  if x - ⌊x⌋ < 1 / 2 then ⌊x⌋
  else if 1 / 2 < x - ⌊x⌋ then ⌊x⌋ + 1
  else if 2 ∣ ⌊x⌋ then ⌊x⌋ else ⌊x⌋ + 1

/-- Nearest binary64 double to a positive rational (53-bit significand,
round to nearest, ties to even): the unit in the last place of a value in
the binade of `q` is `2 ^ (Int.log 2 q - 52)`.  Covers the normal range,
where all values of the development lie. -/
def roundPos (q : ℚ) : ℚ :=
  (roundTiesEven (q / 2 ^ (Int.log 2 q - 52)) : ℚ) * 2 ^ (Int.log 2 q - 52)

/-- The value a single IEEE-754 binary64 operation returns: its exact
rational result, correctly rounded (round to nearest, ties to even). -/
def fpRound (q : ℚ) : ℚ :=
  if q = 0 then 0
  else if 0 < q then roundPos q
  else -(roundPos (-q))

/-- The walk of `get_tile` as the source actually computes it: Python
floats are binary64, so `weight / N` is a rounded division and
`rand -= weight / N` a rounded subtraction, while comparing two doubles is
exact.  Every number is represented by the exact rational value of the
double holding it; `N` is exact when the weights are Python ints, as in
the counterexample table. -/
def get_tile_fp_go (N : ℚ) : List (Int × ℚ) → ℚ → Option Int
  | [], _ => none
  | (choice, weight) :: rest, rand =>
    if rand < fpRound (weight / N) then some choice
    else get_tile_fp_go N rest (fpRound (rand - fpRound (weight / N)))

/-- `get_tile` under the binary64 semantics of the source. -/
def get_tile_fp (settings : List (Int × ℚ)) (rand : ℚ) : Option Int :=
  get_tile_fp_go ((settings.map Prod.snd).sum) settings rand

/-- Write `v` at `board[row][col]`. -/
def setCell (b : Board) (row col : Nat) (v : Int) : Board :=
  b.set row ((b.getD row []).set col v)

/-- Rejection loop of `add_random_tile` (source lines 212-217): draw random
positions until an empty cell is found, then assign the drawn tile there.
`picks` is the stream of `randint` draws; an exhausted stream (which the
unbounded source loop never observes on a non-full board) and the "E"
selection-failure sentinel (a non-integer written onto the board, which the
`Int` board cannot hold) are both embedded as `none`. -/
def spawn_loop (b : Board) (settings : List (Int × ℚ)) (rand : ℚ) :
    List (Nat × Nat) → Option Board
  | [] => none
  | (row, col) :: rest =>
    if cell b row col != 0 then spawn_loop b settings rand rest
    else
      match get_tile settings rand with
      | some v => some (setCell b row col v)
      | none => none

/-- `add_random_tile` (source lines 195-217): no-op (returning the board
unchanged) when the board is full, else the rejection loop. -/
def add_random_tile (X Y : Nat) (b : Board) (settings : List (Int × ℚ))
    (picks : List (Nat × Nat)) (rand : ℚ) : Option Board :=
  if is_full X Y b then some b else spawn_loop b settings rand picks

structure LoopState where
  board : Board
  last : String
  score : Int
deriving Repr, DecidableEq

structure StepResult where
  state : LoopState
  changed : Bool
  spawnInvoked : Bool
  rendered : Bool
deriving Repr

/-- One iteration of the main game loop (source lines 246-256): apply the
move, take the signature `now` of the board (line 249, before any spawn),
add the points to the score, spawn a tile when the move changed the board,
re-render exactly when `now` differs from the last-rendered signature and
then store `now` as the last-rendered signature.  `picks`/`rand` feed the
spawn; if the spawn signals failure the board is kept (the modelled traces
only use spawns that succeed). -/
def loop_step (X Y : Nat) (settings : List (Int × ℚ)) (s : LoopState)
    (d : Direction) (picks : List (Nat × Nat)) (rand : ℚ) : StepResult :=
  let mv := move X Y s.board d
  let now := stringify X Y mv.board
  let score2 := s.score + mv.points
  let board2 :=
    if mv.changed then
      match add_random_tile X Y mv.board settings picks rand with
      | some b2 => b2
      | none => mv.board
    else mv.board
  let rendered := decide (now ≠ s.last)
  { state :=
      { board := board2
        last := if rendered then now else s.last
        score := score2 }
    changed := mv.changed
    spawnInvoked := mv.changed
    rendered := rendered }

/-- Startup of `__main__` (source lines 220-241): build the X-by-Y zero
board and place two random tiles.  No validation of the configuration is
performed anywhere on this path; a selection failure inside a spawn
surfaces as `none`. -/
def mainStartup (X Y : Nat) (settings : List (Int × ℚ))
    (picks1 picks2 : List (Nat × Nat)) (r1 r2 : ℚ) : Option Board :=
  let board0 : Board := List.replicate X (List.replicate Y 0)
  match add_random_tile X Y board0 settings picks1 r1 with
  | none => none
  | some b1 => add_random_tile X Y b1 settings picks2 r2

/-! ### List helpers -/

lemma getD_oob {l : List Int} {i : Nat} (h : l.length ≤ i) : l.getD i 0 = 0 := by
  simp [List.getD_eq_getElem?_getD, List.getElem?_eq_none h]

lemma getD_set_self {l : List Int} {i : Nat} (v : Int) (h : i < l.length) :
    (l.set i v).getD i 0 = v := by
  simp [List.getD_eq_getElem?_getD, List.getElem?_set_self, h]

lemma getD_set_ne {l : List Int} {i j : Nat} (v : Int) (h : i ≠ j) :
    (l.set i v).getD j 0 = l.getD j 0 := by
  simp [List.getD_eq_getElem?_getD, List.getElem?_set_ne h]

lemma set_self_of_getD {l : List Int} {i : Nat} {v : Int} (h : l.getD i 0 = v) :
    l.set i v = l := by
  rcases Nat.lt_or_ge i l.length with hi | hi
  · apply List.ext_getElem (by simp)
    intro k hk hk2
    rcases eq_or_ne i k with rfl | hne
    · rw [List.getElem_set_self hk]
      rw [List.getD_eq_getElem l 0 hi] at h
      exact h.symm
    · exact List.getElem_set_ne hne hk
  · exact List.set_eq_of_length_le hi

lemma getD_set_zero (l : List Int) (i : Nat) : (l.set i 0).getD i 0 = 0 := by
  rcases Nat.lt_or_ge i l.length with hi | hi
  · exact getD_set_self 0 hi
  · rw [List.set_eq_of_length_le hi]
    exact getD_oob hi

lemma sum_set (l : List Int) (i : Nat) (v : Int) (h : i < l.length) :
    (l.set i v).sum = l.sum - l.getD i 0 + v := by
  induction l generalizing i with
  | nil => simp at h
  | cons a t ih =>
    cases i with
    | zero =>
      simp only [List.set, List.sum_cons, List.getD_cons_zero]
      ring
    | succ i =>
      simp only [List.set, List.sum_cons, List.getD_cons_succ]
      rw [ih i (by simpa using h)]
      ring

lemma map_range_getD (r : List Int) : (List.range r.length).map (fun j => r.getD j 0) = r := by
  induction r with
  | nil => simp
  | cons a t ih =>
    rw [List.length_cons, List.range_succ_eq_map, List.map_cons, List.map_map]
    have hc : ((fun j => (a :: t).getD j 0) ∘ (· + 1)) = fun j => t.getD j 0 := by
      funext j
      simp
    rw [hc, ih]
    simp

lemma sum_map_add (l : List Nat) (f g : Nat → Int) :
    (l.map (fun x => f x + g x)).sum = (l.map f).sum + (l.map g).sum := by
  induction l with
  | nil => simp
  | cons a t ih => simp [ih]; ring

/-! ### Settled lines

After a full line pass toward the far edge, every nonzero tile has a
nonzero far-side neighbour of different absolute value: a second pass can
neither slide nor merge it. -/

/-- Every pair (i, i+1) with i ≥ c is settled for a forward (far-edge) pass. -/
def SettledFrom (c : Nat) (r : List Int) : Prop :=
  ∀ i, c ≤ i → i + 1 < r.length → r.getD i 0 ≠ 0 →
    r.getD (i + 1) 0 ≠ 0 ∧ (r.getD i 0).natAbs ≠ (r.getD (i + 1) 0).natAbs

/-- Every pair (i, i+1) with i+1 < c is settled for a backward (near-edge)
pass: a nonzero tile has a nonzero near-side neighbour of different
absolute value. -/
def SettledBelow (c : Nat) (r : List Int) : Prop :=
  ∀ i, i + 1 < c → r.getD (i + 1) 0 ≠ 0 →
    r.getD i 0 ≠ 0 ∧ (r.getD i 0).natAbs ≠ (r.getD (i + 1) 0).natAbs

lemma settledFrom_mono {c c' : Nat} {r : List Int} (h : c ≤ c') (hs : SettledFrom c r) :
    SettledFrom c' r := fun i hi => hs i (le_trans h hi)

lemma settledBelow_mono {c c' : Nat} {r : List Int} (h : c' ≤ c) (hs : SettledBelow c r) :
    SettledBelow c' r := fun i hi => hs i (lt_of_lt_of_le hi h)

/-! ### Length and sum preservation of the line passes -/

lemma slideFwd_length (g : Nat) : ∀ r c, ((slideFwd g r c).1).length = r.length := by
  induction g with
  | zero =>
    intro r c
    simp [slideFwd]
  | succ g ih =>
    intro r c
    simp only [slideFwd]
    by_cases h1 : c + 1 < r.length
    · simp only [if_pos h1]
      by_cases h2 : r.getD (c + 1) 0 = 0
      · simp only [if_pos h2]
        rw [ih]
        simp
      · simp only [if_neg h2]
        by_cases h3 : (r.getD c 0).natAbs = (r.getD (c + 1) 0).natAbs
        · simp only [if_pos h3]
          rw [ih]
          simp
        · rw [if_neg h3]
    · rw [if_neg h1]

lemma pushFwd_length (r : List Int) (c : Nat) : ((pushFwd r c).1).length = r.length :=
  slideFwd_length _ r c

lemma slideBwd_length : ∀ c r, ((slideBwd r c).1).length = r.length := by
  intro c
  induction c with
  | zero =>
    intro r
    simp [slideBwd]
  | succ c ih =>
    intro r
    simp only [slideBwd]
    by_cases h2 : r.getD c 0 = 0
    · simp only [if_pos h2]
      rw [ih]
      simp
    · simp only [if_neg h2]
      by_cases h3 : (r.getD (c + 1) 0).natAbs = (r.getD c 0).natAbs
      · simp only [if_pos h3]
        rw [ih]
        simp
      · rw [if_neg h3]

lemma sum_slide {r : List Int} {c : Nat} (hc : c < r.length) (hc1 : c + 1 < r.length)
    (v : Int) : ((r.set (c + 1) v).set c 0).sum = r.sum - r.getD (c + 1) 0 + v - r.getD c 0 := by
  rw [sum_set _ c 0 (by simpa using hc), sum_set _ (c + 1) v hc1,
    getD_set_ne _ (by omega : c + 1 ≠ c)]
  ring

lemma slideFwd_sum (g : Nat) : ∀ r c, ((slideFwd g r c).1).sum = r.sum := by
  induction g with
  | zero =>
    intro r c
    simp [slideFwd]
  | succ g ih =>
    intro r c
    simp only [slideFwd]
    by_cases h1 : c + 1 < r.length
    · have hc : c < r.length := by omega
      simp only [if_pos h1]
      by_cases h2 : r.getD (c + 1) 0 = 0
      · simp only [if_pos h2]
        rw [ih, sum_slide hc h1, h2]
        ring
      · simp only [if_neg h2]
        by_cases h3 : (r.getD c 0).natAbs = (r.getD (c + 1) 0).natAbs
        · simp only [if_pos h3]
          rw [ih, sum_slide hc h1]
          ring
        · rw [if_neg h3]
    · rw [if_neg h1]

lemma slideBwd_sum : ∀ c r, ((slideBwd r c).1).sum = r.sum := by
  intro c
  induction c with
  | zero =>
    intro r
    simp [slideBwd]
  | succ c ih =>
    intro r
    simp only [slideBwd]
    by_cases h2 : r.getD c 0 = 0
    · simp only [if_pos h2]
      rw [ih]
      rcases Nat.lt_or_ge (c + 1) r.length with h1 | h1
      · rw [sum_set _ (c + 1) 0 (by simpa using (by omega : c + 1 < r.length)),
          sum_set _ c _ (by omega), h2, getD_set_ne _ (by omega : c ≠ c + 1)]
        ring
      · have hv : r.getD (c + 1) 0 = 0 := getD_oob h1
        rw [List.set_eq_of_length_le (by simpa using h1), hv, set_self_of_getD h2]
    · simp only [if_neg h2]
      by_cases h3 : (r.getD (c + 1) 0).natAbs = (r.getD c 0).natAbs
      · simp only [if_pos h3]
        rw [ih]
        rcases Nat.lt_or_ge (c + 1) r.length with h1 | h1
        · rw [sum_set _ (c + 1) 0 (by simpa using (by omega : c + 1 < r.length)),
            sum_set _ c _ (by omega), getD_set_ne _ (by omega : c ≠ c + 1)]
          ring
        · exfalso
          rw [getD_oob h1] at h3
          exact h2 (Int.natAbs_eq_zero.mp (h3.symm.trans Int.natAbs_zero))
      · rw [if_neg h3]

/-! ### A full forward pass settles the line; a settled line is fixed -/

lemma slideFwd_establish (g : Nat) : ∀ r c, r.length - c ≤ g → SettledFrom (c + 1) r →
    SettledFrom c ((slideFwd g r c).1) ∧
      ∀ i < c, ((slideFwd g r c).1).getD i 0 = r.getD i 0 := by
  induction g with
  | zero =>
    intro r c hg _
    constructor
    · intro i hci hi _
      simp only [slideFwd] at hi
      exact absurd hi (by omega)
    · intro i _
      rfl
  | succ g ih =>
    intro r c hg hs
    simp only [slideFwd]
    by_cases h1 : c + 1 < r.length
    · rw [if_pos h1]
      by_cases h2 : r.getD (c + 1) 0 = 0
      · rw [if_pos h2]
        set r' := (r.set (c + 1) (r.getD c 0)).set c 0 with hr'
        have hr'l : r'.length = r.length := by simp [hr']
        have e1 : r'.getD c 0 = 0 := getD_set_zero _ _
        have e2 : ∀ i, i ≠ c → i ≠ c + 1 → r'.getD i 0 = r.getD i 0 := by
          intro i hic hic1
          rw [hr', getD_set_ne _ (Ne.symm hic), getD_set_ne _ (Ne.symm hic1)]
        have hs' : SettledFrom (c + 2) r' := by
          intro i hci hi hne
          rw [e2 i (by omega) (by omega)] at hne
          rw [e2 i (by omega) (by omega), e2 (i + 1) (by omega) (by omega)]
          exact hs i (by omega) (by rw [hr'l] at hi; exact hi) hne
        obtain ⟨ihs, ihp⟩ := ih r' (c + 1) (by omega) hs'
        refine ⟨fun i hci hi hne => ?_, fun i hic => ?_⟩
        · rcases Nat.lt_or_ge c i with hlt | hge
          · exact ihs i (by omega) hi hne
          · have hieq : i = c := by omega
            subst hieq
            rw [ihp i (by omega), e1] at hne
            exact absurd rfl hne
        · rw [ihp i (by omega), e2 i (by omega) (by omega)]
      · rw [if_neg h2]
        by_cases h3 : (r.getD c 0).natAbs = (r.getD (c + 1) 0).natAbs
        · rw [if_pos h3]
          set r' := (r.set (c + 1) (r.getD (c + 1) 0 + r.getD c 0)).set c 0 with hr'
          have hr'l : r'.length = r.length := by simp [hr']
          have e1 : r'.getD c 0 = 0 := getD_set_zero _ _
          have e2 : ∀ i, i ≠ c → i ≠ c + 1 → r'.getD i 0 = r.getD i 0 := by
            intro i hic hic1
            rw [hr', getD_set_ne _ (Ne.symm hic), getD_set_ne _ (Ne.symm hic1)]
          have hs' : SettledFrom (c + 2) r' := by
            intro i hci hi hne
            rw [e2 i (by omega) (by omega)] at hne
            rw [e2 i (by omega) (by omega), e2 (i + 1) (by omega) (by omega)]
            exact hs i (by omega) (by rw [hr'l] at hi; exact hi) hne
          obtain ⟨ihs, ihp⟩ := ih r' (c + 1) (by omega) hs'
          refine ⟨fun i hci hi hne => ?_, fun i hic => ?_⟩
          · rcases Nat.lt_or_ge c i with hlt | hge
            · exact ihs i (by omega) hi hne
            · have hieq : i = c := by omega
              subst hieq
              rw [ihp i (by omega), e1] at hne
              exact absurd rfl hne
          · rw [ihp i (by omega), e2 i (by omega) (by omega)]
        · rw [if_neg h3]
          refine ⟨fun i hci hi hne => ?_, fun i _ => rfl⟩
          rcases Nat.lt_or_ge c i with hlt | hge
          · exact hs i (by omega) hi hne
          · have hieq : i = c := by omega
            subst hieq
            exact ⟨h2, h3⟩
    · rw [if_neg h1]
      refine ⟨fun i hci hi hne => ?_, fun i _ => rfl⟩
      rcases Nat.lt_or_ge c i with hlt | hge
      · exact hs i (by omega) hi hne
      · have hieq : i = c := by omega
        subst hieq
        exact absurd hi h1

lemma pushFwd_establish (r : List Int) (c : Nat) (hs : SettledFrom (c + 1) r) :
    SettledFrom c ((pushFwd r c).1) :=
  (slideFwd_establish (r.length - c) r c le_rfl hs).1

lemma scanFwd_length (cols : List Nat) : ∀ r, ((scanFwd cols r).1).length = r.length := by
  induction cols with
  | nil => intro r; rfl
  | cons c cs ih =>
    intro r
    simp only [scanFwd]
    rw [ih, pushFwd_length]

lemma scanFwd_establish : ∀ n r, SettledFrom n r →
    SettledFrom 0 ((scanFwd (List.range n).reverse r).1) := by
  intro n
  induction n with
  | zero =>
    intro r hs
    simpa using hs
  | succ n ih =>
    intro r hs
    have hrev : (List.range (n + 1)).reverse = n :: (List.range n).reverse := by
      simp [List.range_succ]
    rw [hrev]
    simp only [scanFwd]
    exact ih _ (pushFwd_establish r n (settledFrom_mono (by omega) hs))

lemma slideFwd_noop (g : Nat) : ∀ r c, SettledFrom 0 r → slideFwd g r c = (r, 0) := by
  induction g with
  | zero =>
    intro r c _
    rfl
  | succ g ih =>
    intro r c hs
    simp only [slideFwd]
    by_cases h1 : c + 1 < r.length
    · by_cases h2 : r.getD (c + 1) 0 = 0
      · by_cases hcur : r.getD c 0 = 0
        · have hr' : (r.set (c + 1) (r.getD c 0)).set c 0 = r := by
            rw [set_self_of_getD (h2.trans hcur.symm), set_self_of_getD hcur]
          rw [if_pos h1, if_pos h2, hr', ih r (c + 1) hs]
        · exact absurd h2 (hs c (Nat.zero_le c) h1 hcur).1
      · by_cases h3 : (r.getD c 0).natAbs = (r.getD (c + 1) 0).natAbs
        · exfalso
          rcases eq_or_ne (r.getD c 0) 0 with hc0 | hc0
          · rw [hc0] at h3
            exact h2 (Int.natAbs_eq_zero.mp (h3.symm.trans Int.natAbs_zero))
          · exact (hs c (Nat.zero_le c) h1 hc0).2 h3
        · rw [if_pos h1, if_neg h2, if_neg h3]
    · rw [if_neg h1]

lemma scanFwd_noop (cols : List Nat) (r : List Int) (hs : SettledFrom 0 r) :
    scanFwd cols r = (r, 0) := by
  induction cols with
  | nil => rfl
  | cons c cs ih =>
    simp only [scanFwd]
    have hp : pushFwd r c = (r, 0) := slideFwd_noop _ r c hs
    rw [hp, ih]
    simp

/-! ### The same for backward passes -/

lemma slideBwd_establish : ∀ c r, SettledBelow c r →
    SettledBelow (c + 1) ((slideBwd r c).1) ∧
      ∀ i, c < i → ((slideBwd r c).1).getD i 0 = r.getD i 0 := by
  intro c
  induction c with
  | zero =>
    intro r _
    exact ⟨fun i hi _ => absurd hi (by omega), fun i _ => rfl⟩
  | succ c ih =>
    intro r hs
    simp only [slideBwd]
    by_cases h2 : r.getD c 0 = 0
    · rw [if_pos h2]
      set r' := (r.set c (r.getD (c + 1) 0)).set (c + 1) 0 with hr'
      have e1 : r'.getD (c + 1) 0 = 0 := getD_set_zero _ _
      have e2 : ∀ i, i ≠ c → i ≠ c + 1 → r'.getD i 0 = r.getD i 0 := by
        intro i hic hic1
        rw [hr', getD_set_ne _ (Ne.symm hic1), getD_set_ne _ (Ne.symm hic)]
      have hs' : SettledBelow c r' := by
        intro i hi hne
        rw [e2 (i + 1) (by omega) (by omega)] at hne
        rw [e2 i (by omega) (by omega), e2 (i + 1) (by omega) (by omega)]
        exact hs i (by omega) hne
      obtain ⟨ihs, ihp⟩ := ih r' hs'
      refine ⟨fun i hi hne => ?_, fun i hci => ?_⟩
      · rcases Nat.lt_or_ge (i + 1) (c + 1) with hlt | hge
        · exact ihs i hlt hne
        · have hieq : i = c := by omega
          subst hieq
          rw [ihp (i + 1) (by omega), e1] at hne
          exact absurd rfl hne
      · rw [ihp i (by omega), e2 i (by omega) (by omega)]
    · by_cases h3 : (r.getD (c + 1) 0).natAbs = (r.getD c 0).natAbs
      · rw [if_neg h2, if_pos h3]
        set r' := (r.set c (r.getD c 0 + r.getD (c + 1) 0)).set (c + 1) 0 with hr'
        have e1 : r'.getD (c + 1) 0 = 0 := getD_set_zero _ _
        have e2 : ∀ i, i ≠ c → i ≠ c + 1 → r'.getD i 0 = r.getD i 0 := by
          intro i hic hic1
          rw [hr', getD_set_ne _ (Ne.symm hic1), getD_set_ne _ (Ne.symm hic)]
        have hs' : SettledBelow c r' := by
          intro i hi hne
          rw [e2 (i + 1) (by omega) (by omega)] at hne
          rw [e2 i (by omega) (by omega), e2 (i + 1) (by omega) (by omega)]
          exact hs i (by omega) hne
        obtain ⟨ihs, ihp⟩ := ih r' hs'
        refine ⟨fun i hi hne => ?_, fun i hci => ?_⟩
        · rcases Nat.lt_or_ge (i + 1) (c + 1) with hlt | hge
          · exact ihs i hlt hne
          · have hieq : i = c := by omega
            subst hieq
            rw [ihp (i + 1) (by omega), e1] at hne
            exact absurd rfl hne
        · rw [ihp i (by omega), e2 i (by omega) (by omega)]
      · rw [if_neg h2, if_neg h3]
        refine ⟨fun i hi hne => ?_, fun i _ => rfl⟩
        rcases Nat.lt_or_ge (i + 1) (c + 1) with hlt | hge
        · exact hs i hlt hne
        · have hieq : i = c := by omega
          subst hieq
          exact ⟨h2, fun h => h3 h.symm⟩

lemma scanBwd_length (cols : List Nat) : ∀ r, ((scanBwd cols r).1).length = r.length := by
  induction cols with
  | nil => intro r; rfl
  | cons c cs ih =>
    intro r
    simp only [scanBwd]
    rw [ih, slideBwd_length]

lemma scanBwd_establish : ∀ k c r, SettledBelow c r →
    SettledBelow (c + k) ((scanBwd (List.range' c k) r).1) := by
  intro k
  induction k with
  | zero =>
    intro c r hs
    simpa using hs
  | succ k ih =>
    intro c r hs
    rw [List.range'_succ c k 1]
    simp only [scanBwd]
    have hce : c + (k + 1) = (c + 1) + k := by omega
    rw [hce]
    exact ih (c + 1) _ (slideBwd_establish c r hs).1

lemma slideBwd_noop : ∀ c r, SettledBelow r.length r → slideBwd r c = (r, 0) := by
  intro c
  induction c with
  | zero =>
    intro r _
    rfl
  | succ c ih =>
    intro r hs
    simp only [slideBwd]
    by_cases h2 : r.getD c 0 = 0
    · have hcur : r.getD (c + 1) 0 = 0 := by
        rcases Nat.lt_or_ge (c + 1) r.length with h1 | h1
        · by_contra hne
          exact (hs c h1 hne).1 h2
        · exact getD_oob h1
      have hr' : (r.set c (r.getD (c + 1) 0)).set (c + 1) 0 = r := by
        rw [set_self_of_getD (h2.trans hcur.symm)]
        exact set_self_of_getD hcur
      rw [if_pos h2, hr', ih r hs]
    · by_cases h3 : (r.getD (c + 1) 0).natAbs = (r.getD c 0).natAbs
      · exfalso
        rcases Nat.lt_or_ge (c + 1) r.length with h1 | h1
        · have hcur : r.getD (c + 1) 0 ≠ 0 := by
            intro h0
            rw [h0] at h3
            exact h2 (Int.natAbs_eq_zero.mp h3.symm)
          exact (hs c h1 hcur).2 h3.symm
        · rw [getD_oob h1] at h3
          exact h2 (Int.natAbs_eq_zero.mp h3.symm)
      · rw [if_neg h2, if_neg h3]

lemma scanBwd_noop (cols : List Nat) (r : List Int) (hs : SettledBelow r.length r) :
    scanBwd cols r = (r, 0) := by
  induction cols with
  | nil => rfl
  | cons c cs ih =>
    simp only [scanBwd]
    rw [slideBwd_noop c r hs, ih]
    simp

lemma settledFrom_top (r : List Int) : SettledFrom r.length r :=
  fun _ hi h2 => absurd h2 (by omega)

lemma settledFrom_of_length {r : List Int} {n : Nat} (h : r.length = n) :
    SettledFrom n r := h ▸ settledFrom_top r

lemma settledBelow_zero (r : List Int) : SettledBelow 0 r :=
  fun _ hi => absurd hi (by omega)

/-- A full backward pass on a line of length `n` leaves every pair below its
length settled. -/
lemma lineBwd_settles {n : Nat} {r : List Int} (h : r.length = n) :
    SettledBelow ((lineBwd n r).1).length ((lineBwd n r).1) := by
  have hlen : ((lineBwd n r).1).length = n := by
    rw [lineBwd, scanBwd_length, h]
  rw [hlen, lineBwd, List.range_eq_range' n]
  have := scanBwd_establish n 0 r (settledBelow_zero r)
  simpa using this

lemma lineFwd_settles {n : Nat} {r : List Int} (h : r.length = n) :
    SettledFrom 0 ((lineFwd n r).1) :=
  scanFwd_establish n r (settledFrom_of_length h)

/-! ### Board-level lemmas -/

lemma moveLines_fst (f : List Int → List Int × Int) :
    ∀ b : Board, (moveLines f b).1 = b.map (fun r => (f r).1) := by
  intro b
  induction b with
  | nil => rfl
  | cons r rest ih =>
    simp only [moveLines, List.map_cons]
    rw [ih]

lemma moveLines_noop (f : List Int → List Int × Int) :
    ∀ b : Board, (∀ r ∈ b, f r = (r, 0)) → moveLines f b = (b, 0) := by
  intro b
  induction b with
  | nil => intro _; rfl
  | cons r rest ih =>
    intro h
    simp only [moveLines]
    rw [h r (List.mem_cons_self r rest), ih (fun x hx => h x (List.mem_cons_of_mem r hx))]
    simp

lemma transposeB_length (n : Nat) (b : Board) : (transposeB n b).length = n := by
  simp [transposeB]

lemma transposeB_row_length {n : Nat} {b : Board} :
    ∀ r ∈ transposeB n b, r.length = b.length := by
  intro r hr
  simp only [transposeB, List.mem_map, List.mem_range] at hr
  obtain ⟨j, _, rfl⟩ := hr
  simp

lemma transposeB_transposeB {X Y : Nat} {b : Board} (hlen : b.length = X)
    (hrow : ∀ r ∈ b, r.length = Y) : transposeB X (transposeB Y b) = b := by
  apply List.ext_getElem (by simp [transposeB, hlen])
  intro i hi hi2
  have hiX : i < X := by simpa [transposeB] using hi
  simp only [transposeB, List.getElem_map, List.getElem_range, List.map_map]
  have hby : b[i].length = Y := hrow _ (List.getElem_mem hi2)
  have hstep : ∀ j : Nat,
      ((fun col => col.getD i 0) ∘ fun j => b.map (fun r => r.getD j 0)) j = b[i].getD j 0 := by
    intro j
    simp only [Function.comp]
    rw [List.getD_eq_getElem _ _ (by simpa using hi2), List.getElem_map]
  calc (List.range Y).map ((fun col => col.getD i 0) ∘ fun j => b.map (fun r => r.getD j 0))
      = (List.range Y).map (fun j => b[i].getD j 0) := List.map_congr_left (fun j _ => hstep j)
    _ = b[i] := by rw [← hby, map_range_getD]

/-- C3: applying `move` in the same direction twice, with no spawn in
between, leaves the board unchanged on the second application, and the
second application reports `changed = false`.  After one pass every tile is
blocked (its far-side neighbour is nonzero with a different absolute
value), so the second pass can neither slide nor merge anything. -/
theorem move_idempotent (X Y : Nat) (b : Board) (d : Direction) (hb : WF X Y b) :
    (move X Y (move X Y b d).board d).board = (move X Y b d).board ∧
      (move X Y (move X Y b d).board d).changed = false := by
  obtain ⟨hlen, hrow⟩ := hb
  cases d with
  | right =>
    set b1 := (moveLines (lineFwd Y) b).1 with hb1
    have hsettled : ∀ r1 ∈ b1, SettledFrom 0 r1 := by
      intro r1 hr1
      rw [hb1, moveLines_fst] at hr1
      obtain ⟨r, hr, rfl⟩ := List.mem_map.mp hr1
      exact lineFwd_settles (hrow r hr)
    have hnoop : moveLines (lineFwd Y) b1 = (b1, 0) :=
      moveLines_noop _ b1
        (fun r1 hr1 => scanFwd_noop ((List.range Y).reverse) r1 (hsettled r1 hr1))
    constructor
    · show (moveLines (lineFwd Y) b1).1 = b1
      rw [hnoop]
    · show decide (stringify X Y b1 ≠ stringify X Y (moveLines (lineFwd Y) b1).1) = false
      rw [hnoop]
      simp
  | left =>
    set b1 := (moveLines (lineBwd Y) b).1 with hb1
    have hsettled : ∀ r1 ∈ b1, SettledBelow r1.length r1 := by
      intro r1 hr1
      rw [hb1, moveLines_fst] at hr1
      obtain ⟨r, hr, rfl⟩ := List.mem_map.mp hr1
      exact lineBwd_settles (hrow r hr)
    have hnoop : moveLines (lineBwd Y) b1 = (b1, 0) :=
      moveLines_noop _ b1 (fun r1 hr1 => scanBwd_noop (List.range Y) r1 (hsettled r1 hr1))
    constructor
    · show (moveLines (lineBwd Y) b1).1 = b1
      rw [hnoop]
    · show decide (stringify X Y b1 ≠ stringify X Y (moveLines (lineBwd Y) b1).1) = false
      rw [hnoop]
      simp
  | down =>
    set t1 := (moveLines (lineFwd X) (transposeB Y b)).1 with ht1
    have ht1len : t1.length = Y := by
      rw [ht1, moveLines_fst, List.length_map, transposeB_length]
    have hcollen : ∀ r ∈ transposeB Y b, r.length = X := by
      intro r hr
      rw [transposeB_row_length r hr, hlen]
    have ht1row : ∀ r1 ∈ t1, r1.length = X := by
      intro r1 hr1
      rw [ht1, moveLines_fst] at hr1
      obtain ⟨r, hr, rfl⟩ := List.mem_map.mp hr1
      rw [lineFwd, scanFwd_length, hcollen r hr]
    have hsettled : ∀ r1 ∈ t1, SettledFrom 0 r1 := by
      intro r1 hr1
      rw [ht1, moveLines_fst] at hr1
      obtain ⟨r, hr, rfl⟩ := List.mem_map.mp hr1
      exact lineFwd_settles (hcollen r hr)
    have hTT : transposeB Y (transposeB X t1) = t1 := transposeB_transposeB ht1len ht1row
    have hnoop : moveLines (lineFwd X) t1 = (t1, 0) :=
      moveLines_noop _ t1
        (fun r1 hr1 => scanFwd_noop ((List.range X).reverse) r1 (hsettled r1 hr1))
    constructor
    · show transposeB X (moveLines (lineFwd X) (transposeB Y (transposeB X t1))).1
        = transposeB X t1
      rw [hTT, hnoop]
    · show decide (stringify X Y (transposeB X t1) ≠ stringify X Y
        (transposeB X (moveLines (lineFwd X) (transposeB Y (transposeB X t1))).1)) = false
      rw [hTT, hnoop]
      simp
  | up =>
    set t1 := (moveLines (lineBwd X) (transposeB Y b)).1 with ht1
    have ht1len : t1.length = Y := by
      rw [ht1, moveLines_fst, List.length_map, transposeB_length]
    have hcollen : ∀ r ∈ transposeB Y b, r.length = X := by
      intro r hr
      rw [transposeB_row_length r hr, hlen]
    have ht1row : ∀ r1 ∈ t1, r1.length = X := by
      intro r1 hr1
      rw [ht1, moveLines_fst] at hr1
      obtain ⟨r, hr, rfl⟩ := List.mem_map.mp hr1
      rw [lineBwd, scanBwd_length, hcollen r hr]
    have hsettled : ∀ r1 ∈ t1, SettledBelow r1.length r1 := by
      intro r1 hr1
      rw [ht1, moveLines_fst] at hr1
      obtain ⟨r, hr, rfl⟩ := List.mem_map.mp hr1
      exact lineBwd_settles (hcollen r hr)
    have hTT : transposeB Y (transposeB X t1) = t1 := transposeB_transposeB ht1len ht1row
    have hnoop : moveLines (lineBwd X) t1 = (t1, 0) :=
      moveLines_noop _ t1 (fun r1 hr1 => scanBwd_noop (List.range X) r1 (hsettled r1 hr1))
    constructor
    · show transposeB X (moveLines (lineBwd X) (transposeB Y (transposeB X t1))).1
        = transposeB X t1
      rw [hTT, hnoop]
    · show decide (stringify X Y (transposeB X t1) ≠ stringify X Y
        (transposeB X (moveLines (lineBwd X) (transposeB Y (transposeB X t1))).1)) = false
      rw [hTT, hnoop]
      simp

/-- Witness for C3 at a concrete board and direction. -/
theorem move_idempotent_witness :
    (move 1 2 (move 1 2 [[2, 2]] Direction.left).board Direction.left).board
        = (move 1 2 [[2, 2]] Direction.left).board ∧
      (move 1 2 (move 1 2 [[2, 2]] Direction.left).board Direction.left).changed = false :=
  move_idempotent 1 2 [[2, 2]] Direction.left ⟨rfl, by decide⟩

/-! ### Sum preservation: a slide moves a value, a merge replaces a, b by
a + b and 0, so every line pass preserves the line sum -/

lemma scanFwd_sum (cols : List Nat) : ∀ r, ((scanFwd cols r).1).sum = r.sum := by
  induction cols with
  | nil => intro r; rfl
  | cons c cs ih =>
    intro r
    simp only [scanFwd]
    rw [ih, pushFwd, slideFwd_sum]

lemma scanBwd_sum (cols : List Nat) : ∀ r, ((scanBwd cols r).1).sum = r.sum := by
  induction cols with
  | nil => intro r; rfl
  | cons c cs ih =>
    intro r
    simp only [scanBwd]
    rw [ih, slideBwd_sum]

lemma moveLines_sum (f : List Int → List Int × Int) (hf : ∀ r, ((f r).1).sum = r.sum) :
    ∀ b : Board, boardSum ((moveLines f b).1) = boardSum b := by
  intro b
  induction b with
  | nil => rfl
  | cons r rest ih =>
    show boardSum ((f r).1 :: (moveLines f rest).1) = boardSum (r :: rest)
    simp only [boardSum, List.map_cons, List.sum_cons]
    rw [hf r]
    have h2 : (((moveLines f rest).1).map (fun s => s.sum)).sum
        = (rest.map (fun s => s.sum)).sum := ih
    rw [h2]

lemma transposeB_sum : ∀ (b : Board) (n : Nat), (∀ r ∈ b, r.length = n) →
    boardSum (transposeB n b) = boardSum b := by
  intro b
  induction b with
  | nil =>
    intro n _
    simp [transposeB, boardSum]
  | cons r rest ih =>
    intro n hrow
    have hr : r.length = n := hrow r (List.mem_cons_self r rest)
    have hrest : ∀ s ∈ rest, s.length = n := fun s hs => hrow s (List.mem_cons_of_mem r hs)
    have hcons : transposeB n (r :: rest)
        = (List.range n).map (fun j => r.getD j 0 :: rest.map (fun s => s.getD j 0)) := by
      simp [transposeB]
    rw [boardSum, hcons, List.map_map]
    have hpt : ∀ j ∈ List.range n,
        (List.sum ∘ fun j => r.getD j 0 :: rest.map (fun s => s.getD j 0)) j
          = r.getD j 0 + (rest.map (fun s => s.getD j 0)).sum := by
      intro j _
      simp
    rw [List.map_congr_left hpt, sum_map_add]
    have h1 : ((List.range n).map (fun j => r.getD j 0)).sum = r.sum := by
      rw [← hr, map_range_getD]
    have h2 : ((List.range n).map (fun j => (rest.map (fun s => s.getD j 0)).sum)).sum
        = boardSum (transposeB n rest) := by
      rw [boardSum, transposeB, List.map_map]
      rfl
    rw [h1, h2, ih n hrest]
    simp [boardSum]

/-- Helper: `move` never changes the total of the tile values. -/
lemma move_boardSum (X Y : Nat) (b : Board) (d : Direction) (hb : WF X Y b) :
    boardSum ((move X Y b d).board) = boardSum b := by
  obtain ⟨hlen, hrow⟩ := hb
  cases d with
  | right =>
    show boardSum ((moveLines (lineFwd Y) b).1) = boardSum b
    exact moveLines_sum _ (fun r => scanFwd_sum _ r) b
  | left =>
    show boardSum ((moveLines (lineBwd Y) b).1) = boardSum b
    exact moveLines_sum _ (fun r => scanBwd_sum _ r) b
  | down =>
    show boardSum (transposeB X ((moveLines (lineFwd X) (transposeB Y b)).1)) = boardSum b
    have hcollen : ∀ r ∈ transposeB Y b, r.length = X := by
      intro r hr
      rw [transposeB_row_length r hr, hlen]
    have ht1row : ∀ r1 ∈ (moveLines (lineFwd X) (transposeB Y b)).1, r1.length = X := by
      intro r1 hr1
      rw [moveLines_fst] at hr1
      obtain ⟨r, hr, rfl⟩ := List.mem_map.mp hr1
      rw [lineFwd, scanFwd_length, hcollen r hr]
    rw [transposeB_sum _ X ht1row]
    have h1 : boardSum ((moveLines (lineFwd X) (transposeB Y b)).1)
        = boardSum (transposeB Y b) := moveLines_sum _ (fun r => scanFwd_sum _ r) _
    rw [h1, transposeB_sum b Y hrow]
  | up =>
    show boardSum (transposeB X ((moveLines (lineBwd X) (transposeB Y b)).1)) = boardSum b
    have hcollen : ∀ r ∈ transposeB Y b, r.length = X := by
      intro r hr
      rw [transposeB_row_length r hr, hlen]
    have ht1row : ∀ r1 ∈ (moveLines (lineBwd X) (transposeB Y b)).1, r1.length = X := by
      intro r1 hr1
      rw [moveLines_fst] at hr1
      obtain ⟨r, hr, rfl⟩ := List.mem_map.mp hr1
      rw [lineBwd, scanBwd_length, hcollen r hr]
    rw [transposeB_sum _ X ht1row]
    have h1 : boardSum ((moveLines (lineBwd X) (transposeB Y b)).1)
        = boardSum (transposeB Y b) := moveLines_sum _ (fun r => scanBwd_sum _ r) _
    rw [h1, transposeB_sum b Y hrow]

/-- C10: `move` preserves the sum of all cell values: a slide moves a value
between cells and a merge replaces a and b by a + b and 0, so the total
only grows through spawning. -/
theorem move_preserves_boardSum (X Y : Nat) (b : Board) (d : Direction) (hb : WF X Y b) :
    boardSum ((move X Y b d).board) = boardSum b :=
  move_boardSum X Y b d hb

/-- Witness for C10. -/
theorem move_preserves_boardSum_witness :
    boardSum ((move 1 2 [[2, 2]] Direction.left).board) = boardSum [[2, 2]] :=
  move_preserves_boardSum 1 2 [[2, 2]] Direction.left ⟨rfl, by decide⟩

/-- C5, counterexample: a left move on the board [[2, 2]] performs one merge
(of value 4), yet the board total after the move equals 4, not
4 + 4: the sum is preserved, not increased by the merged value. -/
theorem boardSum_increase_counterexample :
    moveMerges 1 2 [[2, 2]] Direction.left ≠ [] ∧
      ¬ (boardSum ((move 1 2 [[2, 2]] Direction.left).board)
          = boardSum [[2, 2]] + (moveMerges 1 2 [[2, 2]] Direction.left).sum) := by
  decide

/-- C5, amended: on every merge-producing move the board total is unchanged
(the merge writes a + b into one cell and 0 into the other); the points
counter, not the board total, receives the merged values. -/
theorem boardSum_merge_move (X Y : Nat) (b : Board) (d : Direction) (hb : WF X Y b)
    (hm : moveMerges X Y b d ≠ []) :
    boardSum ((move X Y b d).board) = boardSum b :=
  move_boardSum X Y b d hb

/-- Witness for the amended C5. -/
theorem boardSum_merge_move_witness :
    boardSum ((move 1 2 [[2, 2]] Direction.left).board) = boardSum [[2, 2]] :=
  boardSum_merge_move 1 2 [[2, 2]] Direction.left ⟨rfl, by decide⟩ (by decide)

/-! ### The points counter is the sum of the merge trace -/

lemma slideFwdM_spec (g : Nat) : ∀ r c,
    slideFwd g r c = ((slideFwdM g r c).1, ((slideFwdM g r c).2).sum) := by
  induction g with
  | zero => intro r c; rfl
  | succ g ih =>
    intro r c
    simp only [slideFwd, slideFwdM]
    by_cases h1 : c + 1 < r.length
    · rw [if_pos h1, if_pos h1]
      by_cases h2 : r.getD (c + 1) 0 = 0
      · rw [if_pos h2, if_pos h2, ih]
      · rw [if_neg h2, if_neg h2]
        by_cases h3 : (r.getD c 0).natAbs = (r.getD (c + 1) 0).natAbs
        · rw [if_pos h3, if_pos h3, ih]
          simp only [List.sum_cons]
          exact congrArg (Prod.mk _) (Int.add_comm _ _)
        · rw [if_neg h3, if_neg h3]
          rfl
    · rw [if_neg h1, if_neg h1]
      rfl

lemma slideBwdM_spec : ∀ c r,
    slideBwd r c = ((slideBwdM r c).1, ((slideBwdM r c).2).sum) := by
  intro c
  induction c with
  | zero => intro r; rfl
  | succ c ih =>
    intro r
    simp only [slideBwd, slideBwdM]
    by_cases h2 : r.getD c 0 = 0
    · rw [if_pos h2, if_pos h2, ih]
    · rw [if_neg h2, if_neg h2]
      by_cases h3 : (r.getD (c + 1) 0).natAbs = (r.getD c 0).natAbs
      · rw [if_pos h3, if_pos h3, ih]
        simp only [List.sum_cons]
        exact congrArg (Prod.mk _) (Int.add_comm _ _)
      · rw [if_neg h3, if_neg h3]
        rfl

lemma scanFwdM_spec (cols : List Nat) : ∀ r,
    scanFwd cols r = ((scanFwdM cols r).1, ((scanFwdM cols r).2).sum) := by
  induction cols with
  | nil => intro r; rfl
  | cons c cs ih =>
    intro r
    simp only [scanFwd, scanFwdM, pushFwd, pushFwdM]
    rw [slideFwdM_spec, ih]
    simp [List.sum_append]

lemma scanBwdM_spec (cols : List Nat) : ∀ r,
    scanBwd cols r = ((scanBwdM cols r).1, ((scanBwdM cols r).2).sum) := by
  induction cols with
  | nil => intro r; rfl
  | cons c cs ih =>
    intro r
    simp only [scanBwd, scanBwdM]
    rw [slideBwdM_spec, ih]
    simp [List.sum_append]

lemma moveLinesM_spec (f : List Int → List Int × Int) (fM : List Int → List Int × List Int)
    (hf : ∀ r, f r = ((fM r).1, ((fM r).2).sum)) : ∀ b : Board,
    moveLines f b = ((moveLinesM fM b).1, ((moveLinesM fM b).2).sum) := by
  intro b
  induction b with
  | nil => rfl
  | cons r rest ih =>
    simp only [moveLines, moveLinesM]
    rw [hf r, ih]
    simp [List.sum_append]

/-- C1: the points value returned by `move` is the sum of the values of all
merged tiles formed during the move; in particular the move that only
merges two 2-tiles into a 4 returns 4 points from the single merge [4]. -/
theorem points_eq_merge_sum :
    (∀ (X Y : Nat) (b : Board) (d : Direction),
        (move X Y b d).points = (moveMerges X Y b d).sum) ∧
      (move 4 4 [[2, 2, 0, 0], [0, 0, 0, 0], [0, 0, 0, 0], [0, 0, 0, 0]]
          Direction.left).points = 4 ∧
      moveMerges 4 4 [[2, 2, 0, 0], [0, 0, 0, 0], [0, 0, 0, 0], [0, 0, 0, 0]]
          Direction.left = [4] := by
  refine ⟨fun X Y b d => ?_, by decide, by decide⟩
  cases d with
  | right =>
    show (moveLines (lineFwd Y) b).2
        = ((moveLinesM (fun r => scanFwdM (List.range Y).reverse r) b).2).sum
    rw [moveLinesM_spec (lineFwd Y) (fun r => scanFwdM (List.range Y).reverse r)
      (fun r => scanFwdM_spec _ r) b]
  | left =>
    show (moveLines (lineBwd Y) b).2
        = ((moveLinesM (fun r => scanBwdM (List.range Y) r) b).2).sum
    rw [moveLinesM_spec (lineBwd Y) (fun r => scanBwdM (List.range Y) r)
      (fun r => scanBwdM_spec _ r) b]
  | down =>
    show (moveLines (lineFwd X) (transposeB Y b)).2
        = ((moveLinesM (fun r => scanFwdM (List.range X).reverse r) (transposeB Y b)).2).sum
    rw [moveLinesM_spec (lineFwd X) (fun r => scanFwdM (List.range X).reverse r)
      (fun r => scanFwdM_spec _ r) (transposeB Y b)]
  | up =>
    show (moveLines (lineBwd X) (transposeB Y b)).2
        = ((moveLinesM (fun r => scanBwdM (List.range X) r) (transposeB Y b)).2).sum
    rw [moveLinesM_spec (lineBwd X) (fun r => scanBwdM (List.range X) r)
      (fun r => scanBwdM_spec _ r) (transposeB Y b)]

/-! ### Game-over detection -/

lemma is_full_iff (X Y : Nat) (b : Board) :
    is_full X Y b = true ↔ ∀ i < X, ∀ j < Y, cell b i j ≠ 0 := by
  unfold is_full
  simp only [List.all_eq_true, List.mem_range, bne_iff_ne]
  constructor
  · intro h i hi j hj
    exact h j hj i hi
  · intro h j hj i hi
    exact h i hi j hj

lemma noHAdj_iff (X Y : Nat) (b : Board) :
    ((List.range X).any (fun row => (List.range (Y - 1)).any
        (fun col => cell b row col == cell b row (col + 1)))) = false
      ↔ ∀ i < X, ∀ j, j + 1 < Y → cell b i j ≠ cell b i (j + 1) := by
  rw [Bool.eq_false_iff]
  simp only [ne_eq, List.any_eq_true, List.mem_range, beq_iff_eq, not_exists, not_and]
  push_neg
  constructor
  · intro h i hi j hj
    exact h i hi j (by omega)
  · intro h i hi j hj
    exact h i hi j (by omega)

lemma noVAdj_iff (X Y : Nat) (b : Board) :
    ((List.range Y).any (fun col => (List.range (X - 1)).any
        (fun row => cell b row col == cell b (row + 1) col))) = false
      ↔ ∀ j < Y, ∀ i, i + 1 < X → cell b i j ≠ cell b (i + 1) j := by
  rw [Bool.eq_false_iff]
  simp only [ne_eq, List.any_eq_true, List.mem_range, beq_iff_eq, not_exists, not_and]
  push_neg
  constructor
  · intro h j hj i hi
    exact h j hj i (by omega)
  · intro h j hj i hi
    exact h j hj i (by omega)

lemma gameOver_chain (A B C : Bool) :
    ((if A = false then false else if B then false else if C then false else true) = true)
      ↔ (A = true ∧ B = false ∧ C = false) := by
  cases A <;> cases B <;> cases C <;> simp

/-- C2: `is_game_over` is true exactly when the board is full and no two
horizontally adjacent cells are equal and no two vertically adjacent cells
are equal. -/
theorem is_game_over_iff (X Y : Nat) (b : Board) :
    is_game_over X Y b = true ↔
      ((∀ i < X, ∀ j < Y, cell b i j ≠ 0) ∧
        (∀ i < X, ∀ j, j + 1 < Y → cell b i j ≠ cell b i (j + 1)) ∧
        (∀ j < Y, ∀ i, i + 1 < X → cell b i j ≠ cell b (i + 1) j)) := by
  rw [is_game_over, gameOver_chain, is_full_iff, noHAdj_iff, noVAdj_iff]

/-! ### Spawn generator -/

lemma getD_set_self' {α : Type} {l : List α} {i : Nat} (v d : α) (h : i < l.length) :
    (l.set i v).getD i d = v := by
  simp [List.getD_eq_getElem?_getD, List.getElem?_set_self, h]

lemma getD_set_ne' {α : Type} {l : List α} {i j : Nat} (v d : α) (h : i ≠ j) :
    (l.set i v).getD j d = l.getD j d := by
  simp [List.getD_eq_getElem?_getD, List.getElem?_set_ne h]

lemma cell_setCell_ne (b : Board) (row col i j : Nat) (v : Int)
    (h : ¬(i = row ∧ j = col)) : cell (setCell b row col v) i j = cell b i j := by
  rcases eq_or_ne i row with rfl | hir
  · have hjc : j ≠ col := fun hj => h ⟨rfl, hj⟩
    rw [setCell, cell, cell]
    rcases Nat.lt_or_ge i b.length with hlen | hlen
    · rw [getD_set_self' _ _ hlen, getD_set_ne' _ _ (fun hc => hjc hc.symm)]
    · rw [List.set_eq_of_length_le hlen]
  · rw [setCell, cell, cell, getD_set_ne' _ _ (Ne.symm hir)]

lemma spawn_loop_safe : ∀ (picks : List (Nat × Nat)) (b : Board)
    (settings : List (Int × ℚ)) (rand : ℚ) (b2 : Board),
    spawn_loop b settings rand picks = some b2 →
      ∀ i j, cell b2 i j ≠ cell b i j → cell b i j = 0 := by
  intro picks
  induction picks with
  | nil =>
    intro b settings rand b2 h
    exact absurd h (by simp [spawn_loop])
  | cons p rest ih =>
    obtain ⟨row, col⟩ := p
    intro b settings rand b2 h i j hne
    simp only [spawn_loop] at h
    by_cases hocc : (cell b row col != 0) = true
    · rw [if_pos hocc] at h
      exact ih b settings rand b2 h i j hne
    · rw [if_neg hocc] at h
      cases hg : get_tile settings rand with
      | none =>
        rw [hg] at h
        exact absurd h (by simp)
      | some v =>
        rw [hg] at h
        have hb2 : b2 = setCell b row col v := by
          injection h with h2
          exact h2.symm
        subst hb2
        by_cases hij : i = row ∧ j = col
        · obtain ⟨rfl, rfl⟩ := hij
          simpa using hocc
        · exact absurd (cell_setCell_ne b row col i j v hij) hne

/-- C6: `add_random_tile` is a safe no-op on a full board, and otherwise
only ever assigns the drawn value to a cell that currently holds 0 — it
never overwrites a non-empty cell. -/
theorem add_random_tile_safe (X Y : Nat) (b : Board) (settings : List (Int × ℚ))
    (picks : List (Nat × Nat)) (rand : ℚ) :
    (is_full X Y b = true → add_random_tile X Y b settings picks rand = some b) ∧
      (∀ b2, add_random_tile X Y b settings picks rand = some b2 →
        ∀ i j, cell b2 i j ≠ cell b i j → cell b i j = 0) := by
  constructor
  · intro hf
    rw [add_random_tile, if_pos hf]
  · intro b2 hb2 i j hne
    rw [add_random_tile] at hb2
    by_cases hf : is_full X Y b = true
    · rw [if_pos hf] at hb2
      have hbe : b = b2 := by injection hb2
      subst hbe
      exact absurd rfl hne
    · rw [if_neg hf] at hb2
      exact spawn_loop_safe picks b settings rand b2 hb2 i j hne

/-- Witness for C6: the no-op on a full board, and a spawn on [[5, 0]] that
wrote to the empty cell (0, 1), which indeed held 0. -/
theorem add_random_tile_safe_witness :
    add_random_tile 1 1 [[5]] [(1, 1)] [] 0 = some [[5]] ∧ cell [[5, 0]] 0 1 = 0 := by
  have hspawn : add_random_tile 1 2 [[5, 0]] [(1, 2)] [(0, 1)] 0 = some [[5, 1]] := by
    have hget : get_tile [(1, 2)] 0 = some 1 := by
      norm_num [get_tile, get_tile_go]
    rw [add_random_tile, if_neg (by decide), spawn_loop, if_neg (by decide), hget]
    rfl
  exact ⟨(add_random_tile_safe 1 1 [[5]] [(1, 1)] [] 0).1 (by decide),
    (add_random_tile_safe 1 2 [[5, 0]] [(1, 2)] [(0, 1)] 0).2 [[5, 1]] hspawn 0 1 (by decide)⟩

/-! ### Weighted tile selection -/

lemma get_tile_go_total (N : ℚ) (hN : 0 < N) : ∀ (items : List (Int × ℚ)) (rand : ℚ),
    0 ≤ rand → rand < ((items.map Prod.snd).sum) / N →
      (get_tile_go N items rand).isSome = true := by
  intro items
  induction items with
  | nil =>
    intro rand h0 hlt
    simp only [List.map_nil, List.sum_nil, zero_div] at hlt
    exact absurd (lt_of_le_of_lt h0 hlt) (lt_irrefl 0)
  | cons p rest ih =>
    obtain ⟨choice, weight⟩ := p
    intro rand h0 hlt
    simp only [get_tile_go]
    by_cases hc : rand < weight / N
    · rw [if_pos hc]
      rfl
    · rw [if_neg hc]
      apply ih
      · have := not_lt.mp hc
        linarith
      · have hsum : ((List.map Prod.snd ((choice, weight) :: rest)).sum)
            = weight + (rest.map Prod.snd).sum := by simp
        rw [hsum, add_div] at hlt
        linarith

/-- C7, amended: with a non-empty table of positive weights and a draw in
[0, 1), the weighted-selection walk computed in exact arithmetic always
selects an entry, so in that idealization the fall-through branch (the "E"
sentinel) is unreachable.  Under the binary64 arithmetic the source really
uses, the fall-through is reachable within the same preconditions (shown
below): rounding can make the running remainder land exactly on a rounded
weight, where the strict comparison fails. -/
theorem get_tile_selects (settings : List (Int × ℚ)) (rand : ℚ)
    (hne : settings ≠ []) (hpos : ∀ p ∈ settings, 0 < p.2)
    (h0 : 0 ≤ rand) (h1 : rand < 1) :
    (get_tile settings rand).isSome = true := by
  have hNpos : 0 < (settings.map Prod.snd).sum := by
    apply List.sum_pos
    · intro w hw
      obtain ⟨p, hp, rfl⟩ := List.mem_map.mp hw
      exact hpos p hp
    · simpa using hne
  rw [get_tile]
  apply get_tile_go_total _ hNpos _ _ h0
  rw [div_self (ne_of_gt hNpos)]
  exact h1

/-- Witness for C7 on the default spawn table {1: 3, 4: 1}. -/
theorem get_tile_selects_witness : (get_tile [(1, 3), (4, 1)] (1 / 2)).isSome = true :=
  get_tile_selects [(1, 3), (4, 1)] (1 / 2) (by decide)
    (by intro p hp; fin_cases hp <;> norm_num) (by norm_num) (by norm_num)

/-! ### The binary64 walk can fall through -/

lemma int_log_eq {r : ℚ} {e : Int} (hr : 0 < r) (h1 : (2:ℚ) ^ e ≤ r)
    (h2 : r < (2:ℚ) ^ (e + 1)) : Int.log 2 r = e := by
  have hcast : ((2:ℕ) : ℚ) = (2:ℚ) := by norm_num
  have hle : e ≤ Int.log 2 r := by
    have hp : (0:ℚ) < (2:ℚ) ^ e := zpow_pos (by norm_num) e
    have hm := Int.log_mono_right (b := 2) hp h1
    rw [← hcast] at hm
    rwa [Int.log_zpow (by norm_num : 1 < 2)] at hm
  have hlt : Int.log 2 r < e + 1 := by
    by_contra hcon
    push_neg at hcon
    have hself := Int.zpow_log_le_self (b := 2) (by norm_num) hr
    have h2e : (2:ℚ) ^ (e + 1) ≤ (2:ℚ) ^ (Int.log 2 r) :=
      zpow_le_zpow_right₀ (by norm_num) hcon
    rw [hcast] at hself
    linarith
  omega

lemma fpRound_eval (q : ℚ) (e m : Int) (h0 : 0 < q) (hlo : (2:ℚ) ^ e ≤ q)
    (hhi : q < (2:ℚ) ^ (e + 1)) (hm : roundTiesEven (q / 2 ^ (e - 52)) = m) :
    fpRound q = (m : ℚ) * 2 ^ (e - 52) := by
  have hlog : Int.log 2 q = e := int_log_eq h0 hlo hhi
  rw [fpRound, if_neg (by intro h; rw [h] at h0; exact lt_irrefl 0 h0), if_pos h0,
    roundPos, hlog, hm]

lemma rte_down (x : ℚ) (f : Int) (hf : ⌊x⌋ = f) (hlt : x - (f : ℚ) < 1 / 2) :
    roundTiesEven x = f := by
  rw [roundTiesEven, hf, if_pos hlt]

lemma rte_up (x : ℚ) (f : Int) (hf : ⌊x⌋ = f) (h1 : ¬ (x - (f : ℚ) < 1 / 2))
    (h2 : 1 / 2 < x - (f : ℚ)) : roundTiesEven x = f + 1 := by
  rw [roundTiesEven, hf, if_neg h1, if_pos h2]

/-- Rounded division 1 / 6: the binade is [2^-3, 2^-2), the significand
2^55 / 6 rounds down. -/
lemma fpRound_div_one_six : fpRound ((1:ℚ) / 6) = 6004799503160661 / 2 ^ 55 := by
  have hm : roundTiesEven (((1:ℚ) / 6) / 2 ^ ((-3 : Int) - 52)) = 6004799503160661 := by
    have hx : ((1:ℚ) / 6) / 2 ^ ((-3 : Int) - 52) = 2 ^ 55 / 6 := by
      norm_num
    rw [hx]
    refine rte_down _ _ ?_ (by norm_num)
    rw [Int.floor_eq_iff]
    norm_num
  rw [fpRound_eval ((1:ℚ) / 6) (-3) 6004799503160661 (by norm_num) (by norm_num)
    (by norm_num) hm]
  norm_num

/-- Rounded division 4 / 6: the binade is [2^-1, 1), the significand
2^54 / 3 rounds down. -/
lemma fpRound_div_four_six : fpRound ((4:ℚ) / 6) = 6004799503160661 / 2 ^ 53 := by
  have hm : roundTiesEven (((4:ℚ) / 6) / 2 ^ ((-1 : Int) - 52)) = 6004799503160661 := by
    have hx : ((4:ℚ) / 6) / 2 ^ ((-1 : Int) - 52) = 2 ^ 54 / 3 := by
      norm_num
    rw [hx]
    refine rte_down _ _ ?_ (by norm_num)
    rw [Int.floor_eq_iff]
    norm_num
  rw [fpRound_eval ((4:ℚ) / 6) (-1) 6004799503160661 (by norm_num) (by norm_num)
    (by norm_num) hm]
  norm_num

/-- First rounded subtraction of the walk: the exact difference has an odd
significand numerator at scale 2^-55 and rounds up at scale 2^-53. -/
lemma fpRound_sub_one : fpRound ((2 ^ 53 - 1) / 2 ^ 53 - 6004799503160661 / 2 ^ 55)
    = 7505999378950826 / 2 ^ 53 := by
  have hm : roundTiesEven (((2 ^ 53 - 1) / 2 ^ 53 - 6004799503160661 / 2 ^ 55 : ℚ)
      / 2 ^ ((-1 : Int) - 52)) = 7505999378950826 := by
    have hx : ((2 ^ 53 - 1) / 2 ^ 53 - 6004799503160661 / 2 ^ 55 : ℚ)
        / 2 ^ ((-1 : Int) - 52) = 30023997515803303 / 4 := by
      norm_num
    rw [hx]
    have hup := rte_up (30023997515803303 / 4 : ℚ) 7505999378950825 ?_ (by norm_num)
      (by norm_num)
    · rw [hup]
      norm_num
    · rw [Int.floor_eq_iff]
      norm_num
  rw [fpRound_eval _ (-1) 7505999378950826 (by norm_num) (by norm_num) (by norm_num) hm]
  norm_num

/-- Second rounded subtraction: the result rounds up to exactly the
rounded 4 / 6. -/
lemma fpRound_sub_two : fpRound (7505999378950826 / 2 ^ 53 - 6004799503160661 / 2 ^ 55)
    = 6004799503160661 / 2 ^ 53 := by
  have hm : roundTiesEven ((7505999378950826 / 2 ^ 53 - 6004799503160661 / 2 ^ 55 : ℚ)
      / 2 ^ ((-1 : Int) - 52)) = 6004799503160661 := by
    have hx : ((7505999378950826 / 2 ^ 53 - 6004799503160661 / 2 ^ 55 : ℚ)
        / 2 ^ ((-1 : Int) - 52)) = 24019198012642643 / 4 := by
      norm_num
    rw [hx]
    have hup := rte_up (24019198012642643 / 4 : ℚ) 6004799503160660 ?_ (by norm_num)
      (by norm_num)
    · rw [hup]
      norm_num
    · rw [Int.floor_eq_iff]
      norm_num
  rw [fpRound_eval _ (-1) 6004799503160661 (by norm_num) (by norm_num) (by norm_num) hm]
  norm_num

/-- C7, counterexample: under the binary64 arithmetic the source computes
with, the table {1: 1, 2: 1, 3: 4} and the draw (2^53 - 1) / 2^53 — a
value `random()` can return, inside [0, 1), with all weights positive —
make the walk fall through: after two rounded subtractions the remainder
equals the rounded 4/6 exactly, the strict comparison fails, and the
source returns the sentinel "E".  The exact-arithmetic walk selects entry
3 at the same input (`get_tile_exact_at_same_input`), so the fall-through
is a pure floating-point effect, reachable under the claim's
preconditions. -/
theorem get_tile_float_fallthrough :
    get_tile_fp [(1, 1), (2, 1), (3, 4)] ((2 ^ 53 - 1) / 2 ^ 53) = none ∧
      (0:ℚ) ≤ (2 ^ 53 - 1) / 2 ^ 53 ∧ ((2 ^ 53 - 1) / 2 ^ 53 : ℚ) < 1 := by
  refine ⟨?_, by norm_num, by norm_num⟩
  rw [get_tile_fp]
  have hN : ((([(1, 1), (2, 1), (3, 4)] : List (Int × ℚ)).map Prod.snd).sum) = 6 := by
    norm_num
  rw [hN]
  simp only [get_tile_fp_go]
  rw [fpRound_div_one_six, fpRound_div_four_six, fpRound_sub_one, fpRound_sub_two,
    if_neg (by norm_num), if_neg (by norm_num), if_neg (by norm_num)]

/-- At the same table and draw, the exact-rational walk selects entry 3:
the divergence from `get_tile_float_fallthrough` is exactly the rounding. -/
lemma get_tile_exact_at_same_input :
    get_tile [(1, 1), (2, 1), (3, 4)] ((2 ^ 53 - 1) / 2 ^ 53) = some 3 := by
  rw [get_tile]
  have hN : ((([(1, 1), (2, 1), (3, 4)] : List (Int × ℚ)).map Prod.snd).sum) = 6 := by
    norm_num
  rw [hN]
  simp only [get_tile_go]
  rw [if_neg (by norm_num), if_neg (by norm_num), if_pos (by norm_num)]

/-! ### Game-loop render decision and startup -/

/-- C8: the loop computes the render signature before the spawn, so after a
changing move plus spawn, the next iteration re-renders even though its
move reports changed = false: from [[1, 1, 4]], a left move merges to
[[2, 4, 0]] (signature "240" is stored) and spawns a 1 at (0, 2); the next
left move changes nothing, yet the fresh signature "241" differs from the
stored "240" and triggers a re-render. -/
theorem loop_renders_without_change :
    ((loop_step 1 3 [(1, 3), (4, 1)]
        ((loop_step 1 3 [(1, 3), (4, 1)]
            { board := [[1, 1, 4]], last := stringify 1 3 [[1, 1, 4]], score := 0 }
            Direction.left [(0, 2)] (1 / 2)).state)
        Direction.left [] 0).changed = false) ∧
      ((loop_step 1 3 [(1, 3), (4, 1)]
          ((loop_step 1 3 [(1, 3), (4, 1)]
              { board := [[1, 1, 4]], last := stringify 1 3 [[1, 1, 4]], score := 0 }
              Direction.left [(0, 2)] (1 / 2)).state)
          Direction.left [] 0).rendered = true) := by
  have hget : get_tile [(1, 3), (4, 1)] (1 / 2) = some 1 := by
    norm_num [get_tile, get_tile_go]
  have hspawn : add_random_tile 1 3 [[2, 4, 0]] [(1, 3), (4, 1)] [(0, 2)] (1 / 2)
      = some [[2, 4, 1]] := by
    rw [add_random_tile, if_neg (by decide), spawn_loop, if_neg (by decide), hget]
    rfl
  have hmv : move 1 3 [[1, 1, 4]] Direction.left
      = { board := [[2, 4, 0]], points := 2, changed := true } := by decide
  have hmv2 : move 1 3 [[2, 4, 1]] Direction.left
      = { board := [[2, 4, 1]], points := 0, changed := false } := by decide
  have hstep1 : (loop_step 1 3 [(1, 3), (4, 1)]
      { board := [[1, 1, 4]], last := stringify 1 3 [[1, 1, 4]], score := 0 }
      Direction.left [(0, 2)] (1 / 2)).state
      = { board := [[2, 4, 1]], last := stringify 1 3 [[2, 4, 0]], score := 0 + 2 } := by
    simp only [loop_step, hmv, hspawn]
    decide
  rw [hstep1]
  simp only [loop_step, hmv2]
  decide

/-- C9: the startup path performs no validation.  With an empty spawn table
the program proceeds into tile spawning and the selection falls through to
the failure sentinel (the source writes the string "E" onto the integer
board); with zero rows it proceeds with an empty board instead of failing
fast. -/
theorem startup_accepts_degenerate_config :
    mainStartup 4 4 [] [(0, 0)] [(0, 0)] 0 0 = none ∧
      mainStartup 0 4 [(1, 3), (4, 1)] [] [] 0 0 = some [] := by
  decide

end Game2048
